import Mathlib

/-!
Verification of the Chess-Challenge keypad sequence counter.

The source program (`chess-challenge.cpp`) counts the label sequences of a
fixed length that a knight can type on a 4×5 keypad, starting from every
valid key, moving by precomputed knight moves, and discarding any partial
sequence containing more than a fixed number of vowels.

This file shallowly embeds the program: the layout is a list of rows of
characters, the per-key move table is an association list built with
insert-without-overwrite semantics (mirroring `std::unordered_map::insert`),
and the breadth-first enumeration is a fuel-indexed queue loop returning
`none` when the fuel runs out, `some (Except.error ())` when the C++ code
would throw (a `keyMoves.at` lookup miss), and `some (Except.ok _)` on
normal completion.  Accesses `layout[x][y]` that are out of bounds in the
C++ source (undefined behaviour there) are totalised to the null character.
-/

namespace ChessChallenge

/-- 2D keyboard layout, C++ `CharVector2D = vector<vector<char>>`. -/
abbrev CharVector2D := List (List Char)

/-- A coordinate pair, also used for relative moves; C++ `Coordinates = pair<int,int>`. -/
abbrev Coordinates := Int × Int

/-- Association table from key to its precomputed valid moves,
C++ `ValidKeyMoves = unordered_map<char, vector<Coordinates>>`. -/
abbrev ValidKeyMoves := List (Char × List Coordinates)

/-- The character stored at `layout[x][y]`.  In the C++ source an access
outside the vectors' bounds is undefined behaviour; the model totalises such
accesses to the null character `Char.ofNat 0`.  In-bounds accesses agree with
the source exactly. -/
def labelAt (layout : CharVector2D) (x y : Int) : Char :=
  if 0 ≤ x ∧ 0 ≤ y then
    (((layout.get? x.toNat).getD []).get? y.toNat).getD (Char.ofNat 0)
  else Char.ofNat 0

/-- The eight knight move offsets, C++ `Knight::GetMoves`. -/
def GetMoves : List Coordinates :=
  [(-2, -1), (-2, 1), (-1, -2), (-1, 2), (1, -2), (1, 2), (2, -1), (2, 1)]

/-- C++ `KeyboardLayout::GetRows` (`layout.empty() ? 0 : layout.size()`). -/
def GetRows (layout : CharVector2D) : Int := layout.length

/-- C++ `KeyboardLayout::GetCols` (`layout.empty() ? 0 : layout[0].size()`). -/
def GetCols (layout : CharVector2D) : Int := (layout.headD []).length

/-- C++ `Knight::IsValidMove`: the destination of the offset `(moveX, moveY)`
from `(x, y)` must be in bounds, must not carry the invalid key, and the
offset must have the knight's L shape. -/
def IsValidMove (x y moveX moveY : Int) (invalidKey : Char) (layout : CharVector2D) : Bool :=
  let ROWS : Int := layout.length
  let COLS : Int := (layout.headD []).length
  let newX := x + moveX
  let newY := y + moveY
  decide (0 ≤ newX) && decide (newX < ROWS) &&
    decide (0 ≤ newY) && decide (newY < COLS) &&
    decide (labelAt layout newX newY ≠ invalidKey) &&
    ((decide (moveX.natAbs = 1) && decide (moveY.natAbs = 2)) ||
      (decide (moveX.natAbs = 2) && decide (moveY.natAbs = 1)))

/-- C++ `KeyboardLayout::KeyboardLayout`: throws `invalid_argument` exactly
when `newLayout.empty() || newLayout[0].empty()`; `Except.error ()` models
the throw. -/
def KeyboardLayoutInit (newLayout : CharVector2D) : Except Unit CharVector2D :=
  if newLayout.isEmpty || (newLayout.headD []).isEmpty then Except.error ()
  else Except.ok newLayout

/-- The list of cell coordinates in row-major order, as visited by the
`for (i) for (j)` loops of the source (`ROWS = GetRows`, `COLS = GetCols`). -/
def rowMajorCells (layout : CharVector2D) : List Coordinates :=
  (List.range layout.length).flatMap fun i =>
    (List.range (layout.headD []).length).map fun j => ((i : Int), (j : Int))

/-- C++ `Keyboard::IsVowel`, generalised over the vowel string as the spec's
`vowelSet` parameter; the source fixes `vowels = "AEIOU"`. -/
def IsVowel (vowels : List Char) (key : Char) : Bool := vowels.contains key

/-- C++ `Keyboard::CountVowels`: a fold over the characters of `seq`. -/
def CountVowels (vowels : List Char) (seq : List Char) : Nat :=
  seq.foldl (fun count c => if IsVowel vowels c then count + 1 else count) 0

/-- The reference vowel set of the source, `"AEIOU"`. -/
def referenceVowels : List Char := ['A', 'E', 'I', 'O', 'U']

/-- The legal moves from cell `(i, j)`: the knight offsets that pass
`IsValidMove`, in offset-list order (the inner `for (k)` loop). -/
def legalMovesFrom (invalidKey : Char) (layout : CharVector2D) (i j : Int) :
    List Coordinates :=
  GetMoves.filter fun m => IsValidMove i j m.1 m.2 invalidKey layout

/-- Lookup in the move table; `none` models a `keyMoves.at` miss (which
throws `out_of_range` in the source). -/
def findMoves : ValidKeyMoves → Char → Option (List Coordinates)
  | [], _ => none
  | (c, ms) :: t, k => if c = k then some ms else findMoves t k

/-- `unordered_map::insert`: inserts only when the key is absent, never
overwriting an existing entry. -/
def insertKeyMoves (t : ValidKeyMoves) (k : Char) (ms : List Coordinates) :
    ValidKeyMoves :=
  match findMoves t k with
  | some _ => t
  | none => t ++ [(k, ms)]

/-- C++ `Keyboard::SetValidMovesForAllKeys`: iterate the cells in row-major
order and, for each valid cell, insert its legal-move list keyed by its
label. -/
def SetValidMovesForAllKeys (invalidKey : Char) (layout : CharVector2D) :
    ValidKeyMoves :=
  (rowMajorCells layout).foldl
    (fun km p =>
      if labelAt layout p.1 p.2 ≠ invalidKey then
        insertKeyMoves km (labelAt layout p.1 p.2)
          (legalMovesFrom invalidKey layout p.1 p.2)
      else km)
    []

/-- C++ `Keyboard::GetValidMovesForAKey` (`keyMoves.at(key)`). -/
def GetValidMovesForAKey (km : ValidKeyMoves) (key : Char) :
    Option (List Coordinates) :=
  findMoves km key

/-- C++ `Keyboard::Keyboard`: throws `invalid_argument` when the sequence
length is zero, otherwise precomputes the move table. -/
def KeyboardInit (sequenceLength maxVowelCount : Nat) (invalidKey : Char)
    (layout : CharVector2D) : Except Unit ValidKeyMoves :=
  if sequenceLength = 0 then Except.error ()
  else Except.ok (SetValidMovesForAllKeys invalidKey layout)

/-- One entry of the BFS queue: a partial sequence and the coordinates of its
last character, C++ `pair<string, Coordinates>`. -/
abbrev QueueEntry := List Char × Coordinates

/-- The breadth-first loop of C++ `Keyboard::GenerateSequences` for one
starting key, with the queue `q` and the accumulated finished sequences
`acc` made explicit.  `fuel` bounds the number of loop iterations: `none`
means the fuel ran out, `some (Except.error ())` models the exception thrown
by a failed `keyMoves.at` lookup, and `some (Except.ok acc)` is normal loop
exit with the empty queue. -/
def bfsAux (km : ValidKeyMoves) (layout : CharVector2D) (vowels : List Char)
    (sequenceLength maxVowelCount : Nat) :
    Nat → List QueueEntry → List (List Char) →
      Option (Except Unit (List (List Char)))
  | _, [], acc => some (Except.ok acc)
  | 0, _ :: _, _ => none
  | fuel + 1, (seq, pos) :: rest, acc =>
    if CountVowels vowels seq > maxVowelCount then
      bfsAux km layout vowels sequenceLength maxVowelCount fuel rest acc
    else if seq.length = sequenceLength then
      bfsAux km layout vowels sequenceLength maxVowelCount fuel rest (acc ++ [seq])
    else
      match GetValidMovesForAKey km (labelAt layout pos.1 pos.2) with
      | none => some (Except.error ())
      | some moves =>
        bfsAux km layout vowels sequenceLength maxVowelCount fuel
          (rest ++ moves.map fun m =>
            (seq ++ [labelAt layout (pos.1 + m.1) (pos.2 + m.2)],
              (pos.1 + m.1, pos.2 + m.2)))
          acc

/-- The outer loops of `GenerateSequences`: start one BFS from every valid
cell in row-major order, carrying the accumulated sequences across starts
(the C++ code accumulates into the shared `sequences` map). -/
def generateFromStarts (invalidKey : Char) (km : ValidKeyMoves)
    (layout : CharVector2D) (vowels : List Char)
    (sequenceLength maxVowelCount fuel : Nat) :
    List Coordinates → List (List Char) →
      Option (Except Unit (List (List Char)))
  | [], acc => some (Except.ok acc)
  | p :: rest, acc =>
    if labelAt layout p.1 p.2 ≠ invalidKey then
      match bfsAux km layout vowels sequenceLength maxVowelCount fuel
          [([labelAt layout p.1 p.2], p)] acc with
      | none => none
      | some (Except.error e) => some (Except.error e)
      | some (Except.ok acc2) =>
        generateFromStarts invalidKey km layout vowels sequenceLength
          maxVowelCount fuel rest acc2
    else
      generateFromStarts invalidKey km layout vowels sequenceLength
        maxVowelCount fuel rest acc

/-- C++ `Keyboard::GenerateSequences`: build the move table, then enumerate
from every valid starting cell.  The result collects every sequence the
source pushes into its `sequences` map (the per-key vectors, flattened; the
aggregate count of the source is the sum of the vector sizes, i.e. the
length of this list). -/
def GenerateSequences (invalidKey : Char) (layout : CharVector2D)
    (vowels : List Char) (sequenceLength maxVowelCount fuel : Nat) :
    Option (Except Unit (List (List Char))) :=
  generateFromStarts invalidKey (SetValidMovesForAllKeys invalidKey layout)
    layout vowels sequenceLength maxVowelCount fuel (rowMajorCells layout) []

/-- C++ `Keyboard::displayTotalSequences`: the total number of generated
sequences (the sum over the map of the per-key vector sizes). -/
def displayTotalSequences (invalidKey : Char) (layout : CharVector2D)
    (vowels : List Char) (sequenceLength maxVowelCount fuel : Nat) :
    Option (Except Unit Nat) :=
  match GenerateSequences invalidKey layout vowels sequenceLength maxVowelCount fuel with
  | none => none
  | some (Except.error e) => some (Except.error e)
  | some (Except.ok seqs) => some (Except.ok seqs.length)

/-- C++ `main`, generalised over the configuration: construct the layout and
the keyboard (each may throw) and print the total.  The result is the pair
(exit status, standard output); `EXIT_SUCCESS = 0`, `EXIT_FAILURE = 1`.  The
printed line is modelled without the trailing `endl` newline. -/
def mainModel (invalidKey : Char) (layout : CharVector2D) (vowels : List Char)
    (sequenceLength maxVowelCount fuel : Nat) : Option (Nat × String) :=
  match KeyboardLayoutInit layout with
  | Except.error _ => some (1, "")
  | Except.ok _ =>
    match KeyboardInit sequenceLength maxVowelCount invalidKey layout with
    | Except.error _ => some (1, "")
    | Except.ok _ =>
      match displayTotalSequences invalidKey layout vowels sequenceLength
          maxVowelCount fuel with
      | none => none
      | some (Except.error _) => some (1, "")
      | some (Except.ok n) =>
        some (0, "Total number of sequences: " ++ Nat.repr n)

/-- The invalid key of the reference configuration (`char invalidKey = 0`). -/
def referenceInvalidKey : Char := Char.ofNat 0

/-- The 4×5 reference keypad of `main`, with the invalid key at the two
bottom corners. -/
def referenceLayout : CharVector2D :=
  [['A', 'B', 'C', 'D', 'E'],
   ['F', 'G', 'H', 'I', 'J'],
   ['K', 'L', 'M', 'N', 'O'],
   [Char.ofNat 0, '1', '2', '3', Char.ofNat 0]]

/-- The number of valid (non-sentinel) cells of a layout. -/
def validCellCount (invalidKey : Char) (layout : CharVector2D) : Nat :=
  (rowMajorCells layout).countP fun p =>
    decide (labelAt layout p.1 p.2 ≠ invalidKey)

/-- Cell `p` lies within the layout's bounds. -/
def inGrid (layout : CharVector2D) (p : Coordinates) : Prop :=
  0 ≤ p.1 ∧ p.1 < GetRows layout ∧ 0 ≤ p.2 ∧ p.2 < GetCols layout

instance (layout : CharVector2D) (p : Coordinates) : Decidable (inGrid layout p) := by
  unfold inGrid; infer_instance

/-- Distinct valid cells carry distinct labels.  This is the working
assumption under which keying the move table by label is sound (the
reference layout satisfies it). -/
def LabelsInjective (invalidKey : Char) (layout : CharVector2D) : Prop :=
  ∀ p ∈ rowMajorCells layout, ∀ q ∈ rowMajorCells layout,
    labelAt layout p.1 p.2 ≠ invalidKey → labelAt layout q.1 q.2 ≠ invalidKey →
    labelAt layout p.1 p.2 = labelAt layout q.1 q.2 → p = q

instance (invalidKey : Char) (layout : CharVector2D) :
    Decidable (LabelsInjective invalidKey layout) := by
  unfold LabelsInjective; infer_instance

/-- The first valid cell, in row-major order, whose label is `c`. -/
def firstCellWith (invalidKey : Char) (layout : CharVector2D) (c : Char) :
    Option Coordinates :=
  ((rowMajorCells layout).filter fun p =>
    decide (labelAt layout p.1 p.2 ≠ invalidKey) &&
      decide (labelAt layout p.1 p.2 = c)).head?

/-- Every move recorded in the table keeps every cell of the layout inside
the grid.  (Holds for tables built from a layout with injective labels, and
checkable by evaluation for a concrete layout.) -/
def movesStayInGrid (km : ValidKeyMoves) (layout : CharVector2D) : Prop :=
  ∀ p ∈ rowMajorCells layout,
    ∀ m ∈ (GetValidMovesForAKey km (labelAt layout p.1 p.2)).getD [],
      inGrid layout (p.1 + m.1, p.2 + m.2)

instance (km : ValidKeyMoves) (layout : CharVector2D) :
    Decidable (movesStayInGrid km layout) := by
  unfold movesStayInGrid; infer_instance

/-- The number of finished sequences the breadth-first loop derives from one
queue entry `(seq, pos)`: the node's subtree contribution, by recursion on
the remaining length.  Mirrors the per-node processing of the loop (vowel
cutoff first, then the length test, then expansion through the move table). -/
def seqCount (km : ValidKeyMoves) (layout : CharVector2D) (vowels : List Char)
    (L cap : Nat) (seq : List Char) (pos : Coordinates) : Nat :=
  if CountVowels vowels seq > cap then 0
  else if seq.length = L then 1
  else if h : seq.length < L then
    (((GetValidMovesForAKey km (labelAt layout pos.1 pos.2)).getD []).map fun m =>
      seqCount km layout vowels L cap
        (seq ++ [labelAt layout (pos.1 + m.1) (pos.2 + m.2)])
        (pos.1 + m.1, pos.2 + m.2)).sum
  else 0
termination_by L - seq.length
decreasing_by simp [List.length_append]; omega

/-- The same count as `seqCount`, but depending on the partial sequence only
through its vowel count `v` and the remaining length `rem`. -/
def dpAux (km : ValidKeyMoves) (layout : CharVector2D) (vowels : List Char)
    (cap : Nat) : Nat → Nat → Coordinates → Nat
  | 0, v, _ => if cap < v then 0 else 1
  | rem + 1, v, pos =>
    if cap < v then 0
    else
      (((GetValidMovesForAKey km (labelAt layout pos.1 pos.2)).getD []).map fun m =>
        dpAux km layout vowels cap rem
          (v + if IsVowel vowels (labelAt layout (pos.1 + m.1) (pos.2 + m.2)) then 1 else 0)
          (pos.1 + m.1, pos.2 + m.2)).sum

/-- Layer 0 of the tabulated dynamic program: one remaining step of length,
i.e. every surviving sequence is complete, value 1 for every cell and every
vowel usage `v ≤ cap`. -/
def dpLayer0 (layout : CharVector2D) (cap : Nat) : List (List (List Nat)) :=
  (List.range layout.length).map fun _ =>
    (List.range (layout.headD []).length).map fun _ =>
      (List.range (cap + 1)).map fun _ => 1

/-- Read a tabulated layer at cell `(x, y)` and vowel usage `v`; out-of-range
reads give 0. -/
def layerGet (ls : List (List (List Nat))) (x y : Int) (v : Nat) : Nat :=
  if 0 ≤ x ∧ 0 ≤ y then
    (((((ls.get? x.toNat).getD []).get? y.toNat).getD []).get? v).getD 0
  else 0

/-- One tabulation step of the dynamic program. -/
def dpLayerSucc (km : ValidKeyMoves) (layout : CharVector2D) (vowels : List Char)
    (cap : Nat) (prev : List (List (List Nat))) : List (List (List Nat)) :=
  (List.range layout.length).map fun i =>
    (List.range (layout.headD []).length).map fun j =>
      (List.range (cap + 1)).map fun v =>
        (((GetValidMovesForAKey km
            (labelAt layout (Int.ofNat i) (Int.ofNat j))).getD []).map fun m =>
          layerGet prev (Int.ofNat i + m.1) (Int.ofNat j + m.2)
            (v + if IsVowel vowels
                (labelAt layout (Int.ofNat i + m.1) (Int.ofNat j + m.2))
              then 1 else 0)).sum

/-- The tabulated dynamic program: `dpLayers rem` holds `dpAux rem` at every
in-grid cell and vowel usage `v ≤ cap`. -/
def dpLayers (km : ValidKeyMoves) (layout : CharVector2D) (vowels : List Char)
    (cap : Nat) : Nat → List (List (List Nat))
  | 0 => dpLayer0 layout cap
  | rem + 1 => dpLayerSucc km layout vowels cap (dpLayers km layout vowels cap rem)

/-- The largest move-list length stored in the table (a branching bound for
the breadth-first expansion). -/
def maxBranch (km : ValidKeyMoves) : Nat :=
  km.foldr (fun e b => max e.2.length b) 0

/-- Termination measure of the breadth-first loop: entries closer to the
target length weigh exponentially less. -/
def qMeasure (B L : Nat) (q : List QueueEntry) : Nat :=
  (q.map fun e => (B + 1) ^ (L + 1 - e.1.length)).sum

/-- The contribution of one starting cell to the aggregate count: zero for a
sentinel cell, otherwise the subtree count of the one-character sequence at
that cell. -/
def startContribution (invalidKey : Char) (km : ValidKeyMoves)
    (layout : CharVector2D) (vowels : List Char) (L cap : Nat)
    (p : Coordinates) : Nat :=
  if labelAt layout p.1 p.2 ≠ invalidKey then
    seqCount km layout vowels L cap [labelAt layout p.1 p.2] p
  else 0

/-- All offset lists of the given length over the alphabet `A`. -/
def offsetLists (A : List Coordinates) : Nat → List (List Coordinates)
  | 0 => [[]]
  | n + 1 => A.flatMap fun o => (offsetLists A n).map fun os => o :: os

/-- Labels of the cells visited after the start when following the offsets
`os` from `p` (the start's own label excluded). -/
def tailLabels (layout : CharVector2D) : Coordinates → List Coordinates → List Char
  | _, [] => []
  | p, o :: os =>
    labelAt layout (p.1 + o.1) (p.2 + o.2) ::
      tailLabels layout (p.1 + o.1, p.2 + o.2) os

/-- The label sequence spelled by following the offsets `os` from cell `p`. -/
def pathLabels (layout : CharVector2D) (p : Coordinates)
    (os : List Coordinates) : List Char :=
  labelAt layout p.1 p.2 :: tailLabels layout p os

/-- Every step of `os` uses an offset listed in the move table for the
current cell's label. -/
def pathStepsOK (km : ValidKeyMoves) (layout : CharVector2D) :
    Coordinates → List Coordinates → Bool
  | _, [] => true
  | p, o :: os =>
    decide (o ∈ (GetValidMovesForAKey km (labelAt layout p.1 p.2)).getD []) &&
      pathStepsOK km layout (p.1 + o.1, p.2 + o.2) os

/-- No prefix of `ls` contains more than `cap` vowels. -/
def prefixesWithinVowelCap (vowels : List Char) (cap : Nat) (ls : List Char) : Bool :=
  (List.range (ls.length + 1)).all fun k =>
    decide (CountVowels vowels (ls.take k) ≤ cap)

/-- The offset list `os` spells an admissible sequence from start `p`: every
step is listed in the move table for the current cell's label and no prefix
of the spelled label sequence exceeds the vowel cap. -/
def acceptedFrom (km : ValidKeyMoves) (layout : CharVector2D)
    (vowels : List Char) (cap : Nat) (p : Coordinates)
    (os : List Coordinates) : Bool :=
  pathStepsOK km layout p os &&
    prefixesWithinVowelCap vowels cap (pathLabels layout p os)

/-- Helper predicate: steps admissible and the total vowel count, starting
from `v` already used, stays within the cap. -/
def budgetOK (km : ValidKeyMoves) (layout : CharVector2D) (vowels : List Char)
    (cap v : Nat) (p : Coordinates) (os : List Coordinates) : Bool :=
  pathStepsOK km layout p os &&
    decide (v + CountVowels vowels (tailLabels layout p os) ≤ cap)

/-- The declarative aggregate count: over every valid starting cell, the
number of offset lists of length `L - 1` whose spelled label sequence is
admissible. -/
def declarativeCount (invalidKey : Char) (layout : CharVector2D)
    (vowels : List Char) (L cap : Nat) : Nat :=
  ((rowMajorCells layout).map fun p =>
    if labelAt layout p.1 p.2 ≠ invalidKey then
      (offsetLists GetMoves (L - 1)).countP
        (acceptedFrom (SetValidMovesForAllKeys invalidKey layout) layout vowels cap p)
    else 0).sum

/-- The move table of the reference configuration. -/
def referenceKeyMoves : ValidKeyMoves :=
  SetValidMovesForAllKeys referenceInvalidKey referenceLayout

/-- The aggregate count of the reference configuration computed by the
tabulated dynamic program. -/
def referenceDPTotal : Nat :=
  ((rowMajorCells referenceLayout).map fun p =>
    if labelAt referenceLayout p.1 p.2 ≠ referenceInvalidKey then
      layerGet (dpLayers referenceKeyMoves referenceLayout referenceVowels 2 9)
        p.1 p.2
        (if IsVowel referenceVowels (labelAt referenceLayout p.1 p.2) then 1 else 0)
    else 0).sum

/-! ### Basic lemmas -/

theorem countVowels_foldl (vowels : List Char) :
    ∀ (seq : List Char) (n : Nat),
      seq.foldl (fun count c => if IsVowel vowels c then count + 1 else count) n =
        n + seq.countP fun c => IsVowel vowels c := by
  intro seq
  induction seq with
  | nil => intro n; simp
  | cons c t ih =>
    intro n
    simp only [List.foldl_cons, List.countP_cons, ih]
    by_cases h : IsVowel vowels c <;> simp [h] <;> omega

theorem countVowels_eq_countP (vowels seq : List Char) :
    CountVowels vowels seq = seq.countP fun c => IsVowel vowels c := by
  simpa using countVowels_foldl vowels seq 0

theorem countVowels_append (vowels s t : List Char) :
    CountVowels vowels (s ++ t) = CountVowels vowels s + CountVowels vowels t := by
  simp [countVowels_eq_countP, List.countP_append]

theorem countVowels_singleton (vowels : List Char) (c : Char) :
    CountVowels vowels [c] = if IsVowel vowels c then 1 else 0 := by
  by_cases h : IsVowel vowels c <;> simp [countVowels_eq_countP, List.countP_cons, h]

theorem countVowels_cons (vowels : List Char) (c : Char) (t : List Char) :
    CountVowels vowels (c :: t) =
      (if IsVowel vowels c then 1 else 0) + CountVowels vowels t := by
  by_cases h : IsVowel vowels c <;>
    simp [countVowels_eq_countP, List.countP_cons, h] <;> omega

theorem countVowels_le_length (vowels seq : List Char) :
    CountVowels vowels seq ≤ seq.length := by
  rw [countVowels_eq_countP]; exact List.countP_le_length _

theorem countVowels_take_le (vowels : List Char) (k : Nat) (ls : List Char) :
    CountVowels vowels (ls.take k) ≤ CountVowels vowels ls := by
  simp only [countVowels_eq_countP]
  exact (List.take_sublist k ls).countP_le _

theorem mem_rowMajorCells_iff (layout : CharVector2D) (p : Coordinates) :
    p ∈ rowMajorCells layout ↔ inGrid layout p := by
  obtain ⟨x, y⟩ := p
  unfold rowMajorCells inGrid GetRows GetCols
  simp only [List.headD_eq_head?, List.mem_flatMap, List.mem_map, List.mem_range]
  constructor
  · rintro ⟨i, hi, j, hj, hp⟩
    simp at hj
    obtain ⟨a, ha, rfl⟩ := hj
    rw [Prod.mk.injEq] at hp
    obtain ⟨hx, hy⟩ := hp
    subst hx; subst hy
    exact ⟨by omega, by omega, by omega, by omega⟩
  · rintro ⟨hx0, hxr, hy0, hyc⟩
    refine ⟨x.toNat, by omega, (y.toNat : Int), ?_,
      by rw [Prod.mk.injEq]; constructor <;> omega⟩
    simp
    refine ⟨y.toNat, by omega, by omega⟩

/-! ### Characterisation of the move table -/

theorem findMoves_append_of_some {t1 : ValidKeyMoves} {c : Char}
    {ms : List Coordinates} (t2 : ValidKeyMoves)
    (h : findMoves t1 c = some ms) : findMoves (t1 ++ t2) c = some ms := by
  induction t1 with
  | nil => simp [findMoves] at h
  | cons e t ih =>
    obtain ⟨c', ms'⟩ := e
    by_cases hc : c' = c
    · simpa [findMoves, hc] using h
    · rw [findMoves] at h
      simp only [hc, if_false] at h
      simpa [findMoves, hc] using ih h

theorem findMoves_append_of_none {t1 : ValidKeyMoves} {c : Char}
    (t2 : ValidKeyMoves) (h : findMoves t1 c = none) :
    findMoves (t1 ++ t2) c = findMoves t2 c := by
  induction t1 with
  | nil => simp
  | cons e t ih =>
    obtain ⟨c', ms'⟩ := e
    by_cases hc : c' = c
    · rw [findMoves] at h; simp [hc] at h
    · rw [findMoves] at h
      simp only [hc, if_false] at h
      simpa [findMoves, hc] using ih h

theorem findMoves_foldl_insert (invalidKey : Char) (layout : CharVector2D) :
    ∀ (cells : List Coordinates) (t0 : ValidKeyMoves) (c : Char),
      findMoves
        (cells.foldl
          (fun km p =>
            if labelAt layout p.1 p.2 ≠ invalidKey then
              insertKeyMoves km (labelAt layout p.1 p.2)
                (legalMovesFrom invalidKey layout p.1 p.2)
            else km)
          t0) c =
        (findMoves t0 c).elim
          ((cells.filter fun p =>
              decide (labelAt layout p.1 p.2 ≠ invalidKey) &&
                decide (labelAt layout p.1 p.2 = c)).head?.map
            fun p => legalMovesFrom invalidKey layout p.1 p.2)
          some := by
  intro cells
  induction cells with
  | nil =>
    intro t0 c
    cases h : findMoves t0 c <;> simp [h]
  | cons p rest ih =>
    intro t0 c
    by_cases hv : labelAt layout p.1 p.2 ≠ invalidKey
    · by_cases hc : labelAt layout p.1 p.2 = c
      · have hcv : c ≠ invalidKey := hc ▸ hv
        have hpred : (decide (labelAt layout p.1 p.2 ≠ invalidKey) &&
            decide (labelAt layout p.1 p.2 = c)) = true := by
          simp [hc, hcv]
        cases h0 : findMoves t0 c with
        | some ms =>
          have ht1 : findMoves (insertKeyMoves t0 (labelAt layout p.1 p.2)
              (legalMovesFrom invalidKey layout p.1 p.2)) c = some ms := by
            unfold insertKeyMoves
            rw [hc, h0]
            exact h0
          simp only [List.foldl_cons, hv, if_true, ne_eq, not_false_iff, ite_true]
          rw [ih, ht1]
          rfl
        | none =>
          have ht1 : findMoves (insertKeyMoves t0 (labelAt layout p.1 p.2)
              (legalMovesFrom invalidKey layout p.1 p.2)) c =
              some (legalMovesFrom invalidKey layout p.1 p.2) := by
            unfold insertKeyMoves
            rw [hc, h0]
            rw [findMoves_append_of_none _ h0]
            simp [findMoves, hc]
          simp only [List.foldl_cons, hv, if_true, ne_eq, not_false_iff, ite_true]
          rw [ih, ht1]
          simp [List.filter_cons, h0, hv, hc, hcv]
      · have hpred : (decide (labelAt layout p.1 p.2 ≠ invalidKey) &&
            decide (labelAt layout p.1 p.2 = c)) = false := by
          simp [hc]
        have ht1 : findMoves (insertKeyMoves t0 (labelAt layout p.1 p.2)
            (legalMovesFrom invalidKey layout p.1 p.2)) c = findMoves t0 c := by
          unfold insertKeyMoves
          cases hk : findMoves t0 (labelAt layout p.1 p.2) with
          | some ms => rfl
          | none =>
            cases h0 : findMoves t0 c with
            | some ms => exact findMoves_append_of_some _ h0
            | none =>
              rw [findMoves_append_of_none _ h0]
              simp [findMoves, hc]
        simp only [List.foldl_cons, hv, if_true, ne_eq, not_false_iff, ite_true]
        rw [ih, ht1]
        simp [List.filter_cons, hpred, hc]
    · have hpred : (decide (labelAt layout p.1 p.2 ≠ invalidKey) &&
          decide (labelAt layout p.1 p.2 = c)) = false := by
        simp at hv
        simp [hv]
      simp only [List.foldl_cons, hv, if_false, ite_false]
      rw [ih]
      simp [List.filter_cons, hpred, hv]

theorem getValidMoves_build (invalidKey : Char) (layout : CharVector2D) (c : Char) :
    GetValidMovesForAKey (SetValidMovesForAllKeys invalidKey layout) c =
      (firstCellWith invalidKey layout c).map
        fun p => legalMovesFrom invalidKey layout p.1 p.2 := by
  unfold GetValidMovesForAKey SetValidMovesForAllKeys firstCellWith
  rw [findMoves_foldl_insert]
  simp [findMoves]

theorem firstCellWith_self (invalidKey : Char) (layout : CharVector2D)
    (hinj : LabelsInjective invalidKey layout) {p : Coordinates}
    (hp : p ∈ rowMajorCells layout)
    (hv : labelAt layout p.1 p.2 ≠ invalidKey) :
    firstCellWith invalidKey layout (labelAt layout p.1 p.2) = some p := by
  unfold firstCellWith
  have hmem : p ∈ (rowMajorCells layout).filter fun q =>
      decide (labelAt layout q.1 q.2 ≠ invalidKey) &&
        decide (labelAt layout q.1 q.2 = labelAt layout p.1 p.2) := by
    rw [List.mem_filter]
    exact ⟨hp, by simp [hv]⟩
  cases hfl : (rowMajorCells layout).filter fun q =>
      decide (labelAt layout q.1 q.2 ≠ invalidKey) &&
        decide (labelAt layout q.1 q.2 = labelAt layout p.1 p.2) with
  | nil => rw [hfl] at hmem; simp at hmem
  | cons q t =>
    have hq : q ∈ (rowMajorCells layout).filter fun q =>
        decide (labelAt layout q.1 q.2 ≠ invalidKey) &&
          decide (labelAt layout q.1 q.2 = labelAt layout p.1 p.2) := by
      rw [hfl]; exact List.mem_cons_self q t
    rw [List.mem_filter] at hq
    obtain ⟨hqcells, hqpred⟩ := hq
    simp only [Bool.and_eq_true, decide_eq_true_eq] at hqpred
    have hqp : q = p := hinj q hqcells p hp hqpred.1 hv hqpred.2
    rw [hqp]
    rfl

theorem getValidMoves_build_self (invalidKey : Char) (layout : CharVector2D)
    (hinj : LabelsInjective invalidKey layout) {p : Coordinates}
    (hp : inGrid layout p) (hv : labelAt layout p.1 p.2 ≠ invalidKey) :
    GetValidMovesForAKey (SetValidMovesForAllKeys invalidKey layout)
        (labelAt layout p.1 p.2) =
      some (legalMovesFrom invalidKey layout p.1 p.2) := by
  rw [getValidMoves_build,
    firstCellWith_self invalidKey layout hinj ((mem_rowMajorCells_iff _ _).mpr hp) hv]
  rfl

theorem isValidMove_iff (x y dx dy : Int) (invalidKey : Char)
    (layout : CharVector2D) :
    IsValidMove x y dx dy invalidKey layout = true ↔
      (0 ≤ x + dx ∧ x + dx < GetRows layout ∧
        0 ≤ y + dy ∧ y + dy < GetCols layout ∧
        labelAt layout (x + dx) (y + dy) ≠ invalidKey ∧
        ((dx.natAbs = 1 ∧ dy.natAbs = 2) ∨ (dx.natAbs = 2 ∧ dy.natAbs = 1))) := by
  simp only [IsValidMove, GetRows, GetCols, Bool.and_eq_true, Bool.or_eq_true,
    decide_eq_true_eq]
  tauto

theorem legalMovesFrom_dest (invalidKey : Char) (layout : CharVector2D)
    {x y : Int} {m : Coordinates}
    (hm : m ∈ legalMovesFrom invalidKey layout x y) :
    inGrid layout (x + m.1, y + m.2) ∧
      labelAt layout (x + m.1) (y + m.2) ≠ invalidKey := by
  unfold legalMovesFrom at hm
  rw [List.mem_filter] at hm
  have h := (isValidMove_iff x y m.1 m.2 invalidKey layout).mp hm.2
  exact ⟨⟨h.1, h.2.1, h.2.2.1, h.2.2.2.1⟩, h.2.2.2.2.1⟩

theorem legalMovesFrom_sublist (invalidKey : Char) (layout : CharVector2D)
    (x y : Int) : (legalMovesFrom invalidKey layout x y).Sublist GetMoves :=
  List.filter_sublist GetMoves

theorem table_entry_shape (invalidKey : Char) (layout : CharVector2D)
    {c : Char} {ms : List Coordinates}
    (h : GetValidMovesForAKey (SetValidMovesForAllKeys invalidKey layout) c =
      some ms) :
    ∃ p : Coordinates, ms = legalMovesFrom invalidKey layout p.1 p.2 := by
  rw [getValidMoves_build] at h
  cases hfc : firstCellWith invalidKey layout c with
  | none =>
    rw [hfc] at h
    simp only [Option.map_none'] at h
    exact Option.noConfusion h
  | some p =>
    rw [hfc] at h
    simp only [Option.map_some'] at h
    exact ⟨p, (Option.some_inj.mp h).symm⟩

theorem length_le_maxBranch {km : ValidKeyMoves} {c : Char}
    {ms : List Coordinates} (h : findMoves km c = some ms) :
    ms.length ≤ maxBranch km := by
  induction km with
  | nil => simp [findMoves] at h
  | cons e t ih =>
    obtain ⟨c', ms'⟩ := e
    have hmb : maxBranch ((c', ms') :: t) = max ms'.length (maxBranch t) := rfl
    rw [findMoves] at h
    by_cases hc : c' = c
    · rw [if_pos hc] at h
      rw [hmb, Option.some_inj.mp h]
      exact le_max_left _ _
    · rw [if_neg hc] at h
      rw [hmb]
      exact le_trans (ih h) (le_max_right _ _)

/-! ### The subtree count as a dynamic program -/

theorem seqCount_eq_dpAux (km : ValidKeyMoves) (layout : CharVector2D)
    (vowels : List Char) (L cap : Nat) :
    ∀ (n : Nat) (seq : List Char) (pos : Coordinates),
      seq.length ≤ L → L - seq.length = n →
      seqCount km layout vowels L cap seq pos =
        dpAux km layout vowels cap n (CountVowels vowels seq) pos := by
  intro n
  induction n with
  | zero =>
    intro seq pos hle hn
    have hlen : seq.length = L := by omega
    rw [seqCount]
    by_cases h1 : CountVowels vowels seq > cap
    · rw [if_pos h1]
      simp only [dpAux]
      rw [if_pos h1]
    · rw [if_neg h1, if_pos hlen]
      simp only [dpAux]
      rw [if_neg h1]
  | succ n ih =>
    intro seq pos hle hn
    have hlt : seq.length < L := by omega
    rw [seqCount]
    by_cases h1 : CountVowels vowels seq > cap
    · rw [if_pos h1]
      simp only [dpAux]
      rw [if_pos h1]
    · rw [if_neg h1, if_neg (by omega : ¬seq.length = L), dif_pos hlt]
      simp only [dpAux]
      rw [if_neg h1]
      congr 1
      apply List.map_congr_left
      intro m _
      rw [ih (seq ++ [labelAt layout (pos.1 + m.1) (pos.2 + m.2)])
        (pos.1 + m.1, pos.2 + m.2)
        (by simp only [List.length_append, List.length_cons, List.length_nil]; omega)
        (by simp only [List.length_append, List.length_cons, List.length_nil]; omega)]
      rw [countVowels_append, countVowels_singleton]

/-! ### Soundness of the breadth-first loop against the subtree count -/

theorem bfsAux_ok_length (km : ValidKeyMoves) (layout : CharVector2D)
    (vowels : List Char) (L cap : Nat) :
    ∀ (fuel : Nat) (q : List QueueEntry) (acc out : List (List Char)),
      (∀ e ∈ q, e.1.length ≤ L) →
      bfsAux km layout vowels L cap fuel q acc = some (Except.ok out) →
      out.length = acc.length +
        (q.map fun e => seqCount km layout vowels L cap e.1 e.2).sum := by
  intro fuel
  induction fuel with
  | zero =>
    intro q acc out hq hrun
    cases q with
    | nil =>
      simp only [bfsAux, Option.some_inj, Except.ok.injEq] at hrun
      subst hrun
      simp
    | cons e rest => simp [bfsAux] at hrun
  | succ fuel ih =>
    intro q acc out hq hrun
    cases q with
    | nil =>
      simp only [bfsAux, Option.some_inj, Except.ok.injEq] at hrun
      subst hrun
      simp
    | cons e rest =>
      obtain ⟨seq, pos⟩ := e
      simp only [bfsAux] at hrun
      by_cases h1 : CountVowels vowels seq > cap
      · rw [if_pos h1] at hrun
        have hrec := ih rest acc out
          (fun e he => hq e (List.mem_cons_of_mem _ he)) hrun
        have hzero : seqCount km layout vowels L cap seq pos = 0 := by
          rw [seqCount, if_pos h1]
        rw [hrec]
        simp [hzero]
      · rw [if_neg h1] at hrun
        by_cases h2 : seq.length = L
        · rw [if_pos h2] at hrun
          have hrec := ih rest (acc ++ [seq]) out
            (fun e he => hq e (List.mem_cons_of_mem _ he)) hrun
          have hone : seqCount km layout vowels L cap seq pos = 1 := by
            rw [seqCount, if_neg h1, if_pos h2]
          rw [hrec]
          simp [hone]
          omega
        · rw [if_neg h2] at hrun
          cases hmv : GetValidMovesForAKey km (labelAt layout pos.1 pos.2) with
          | none =>
            rw [hmv] at hrun
            simp only at hrun
            exact absurd hrun (by simp)
          | some moves =>
            rw [hmv] at hrun
            simp only at hrun
            have hlt : seq.length < L :=
              lt_of_le_of_ne (hq (seq, pos) (List.mem_cons_self _ _)) h2
            have hinv : ∀ e ∈ rest ++ moves.map fun m =>
                (seq ++ [labelAt layout (pos.1 + m.1) (pos.2 + m.2)],
                  (pos.1 + m.1, pos.2 + m.2)), e.1.length ≤ L := by
              intro e he
              rcases List.mem_append.mp he with h | h
              · exact hq e (List.mem_cons_of_mem _ h)
              · obtain ⟨m, _, rfl⟩ := List.mem_map.mp h
                simp only [List.length_append, List.length_cons, List.length_nil]
                omega
            have hrec := ih _ acc out hinv hrun
            rw [hrec]
            rw [List.map_append, List.sum_append]
            have hnode : seqCount km layout vowels L cap seq pos =
                (moves.map fun m =>
                  seqCount km layout vowels L cap
                    (seq ++ [labelAt layout (pos.1 + m.1) (pos.2 + m.2)])
                    (pos.1 + m.1, pos.2 + m.2)).sum := by
              rw [seqCount, if_neg h1, if_neg h2, dif_pos hlt, hmv]
              rfl
            have hchild : List.map (fun e => seqCount km layout vowels L cap e.1 e.2)
                (moves.map fun m =>
                  (seq ++ [labelAt layout (pos.1 + m.1) (pos.2 + m.2)],
                    (pos.1 + m.1, pos.2 + m.2))) =
                moves.map fun m => seqCount km layout vowels L cap
                  (seq ++ [labelAt layout (pos.1 + m.1) (pos.2 + m.2)])
                  (pos.1 + m.1, pos.2 + m.2) := by
              rw [List.map_map]
              apply List.map_congr_left
              intro m _
              rfl
            rw [List.map_cons, List.sum_cons, hnode, hchild]
            omega

/-! ### Fuel monotonicity of the breadth-first loop -/

theorem bfsAux_mono (km : ValidKeyMoves) (layout : CharVector2D)
    (vowels : List Char) (L cap : Nat) :
    ∀ (fuel fuel' : Nat) (q : List QueueEntry) (acc : List (List Char))
      (r : Except Unit (List (List Char))), fuel ≤ fuel' →
      bfsAux km layout vowels L cap fuel q acc = some r →
      bfsAux km layout vowels L cap fuel' q acc = some r := by
  intro fuel
  induction fuel with
  | zero =>
    intro fuel' q acc r _ h
    cases q with
    | nil => simpa only [bfsAux] using h
    | cons e rest => simp [bfsAux] at h
  | succ fuel ih =>
    intro fuel' q acc r hle h
    cases q with
    | nil => simpa only [bfsAux] using h
    | cons e rest =>
      obtain ⟨fuel2, rfl⟩ : ∃ k, fuel' = k + 1 := ⟨fuel' - 1, by omega⟩
      obtain ⟨seq, pos⟩ := e
      simp only [bfsAux] at h ⊢
      by_cases h1 : CountVowels vowels seq > cap
      · rw [if_pos h1] at h ⊢
        exact ih fuel2 rest acc r (by omega) h
      · rw [if_neg h1] at h ⊢
        by_cases h2 : seq.length = L
        · rw [if_pos h2] at h ⊢
          exact ih fuel2 rest (acc ++ [seq]) r (by omega) h
        · rw [if_neg h2] at h ⊢
          cases hmv : GetValidMovesForAKey km (labelAt layout pos.1 pos.2) with
          | none =>
            rw [hmv] at h
            simp only at h ⊢
            exact h
          | some moves =>
            rw [hmv] at h
            simp only at h ⊢
            exact ih fuel2 _ acc r (by omega) h

/-! ### Termination of the breadth-first loop -/

theorem qMeasure_cons (B L : Nat) (e : QueueEntry) (q : List QueueEntry) :
    qMeasure B L (e :: q) = (B + 1) ^ (L + 1 - e.1.length) + qMeasure B L q := by
  unfold qMeasure
  rw [List.map_cons, List.sum_cons]

theorem qMeasure_append (B L : Nat) (q1 q2 : List QueueEntry) :
    qMeasure B L (q1 ++ q2) = qMeasure B L q1 + qMeasure B L q2 := by
  unfold qMeasure
  rw [List.map_append, List.sum_append]

theorem bfsAux_term (km : ValidKeyMoves) (layout : CharVector2D)
    (vowels : List Char) (L cap : Nat) (B : Nat)
    (hB : ∀ c ms, GetValidMovesForAKey km c = some ms → ms.length ≤ B) :
    ∀ (n : Nat) (q : List QueueEntry) (acc : List (List Char)),
      qMeasure B L q ≤ n → (∀ e ∈ q, e.1.length ≤ L) →
      ∃ fuel r, bfsAux km layout vowels L cap fuel q acc = some r := by
  intro n
  induction n with
  | zero =>
    intro q acc hm hq
    cases q with
    | nil => exact ⟨0, Except.ok acc, by simp [bfsAux]⟩
    | cons e rest =>
      exfalso
      have hpow : 0 < (B + 1) ^ (L + 1 - e.1.length) := pow_pos (by omega) _
      have := qMeasure_cons B L e rest
      omega
  | succ n ih =>
    intro q acc hm hq
    cases q with
    | nil => exact ⟨0, Except.ok acc, by simp [bfsAux]⟩
    | cons e rest =>
      obtain ⟨seq, pos⟩ := e
      have hpow : 0 < (B + 1) ^ (L + 1 - seq.length) := pow_pos (by omega) _
      have hcons : qMeasure B L ((seq, pos) :: rest) =
          (B + 1) ^ (L + 1 - seq.length) + qMeasure B L rest :=
        qMeasure_cons B L (seq, pos) rest
      by_cases h1 : CountVowels vowels seq > cap
      · obtain ⟨fuel, r, hr⟩ := ih rest acc (by omega)
          (fun e he => hq e (List.mem_cons_of_mem _ he))
        refine ⟨fuel + 1, r, ?_⟩
        simp only [bfsAux]
        rw [if_pos h1]
        exact hr
      · by_cases h2 : seq.length = L
        · obtain ⟨fuel, r, hr⟩ := ih rest (acc ++ [seq]) (by omega)
            (fun e he => hq e (List.mem_cons_of_mem _ he))
          refine ⟨fuel + 1, r, ?_⟩
          simp only [bfsAux]
          rw [if_neg h1, if_pos h2]
          exact hr
        · cases hmv : GetValidMovesForAKey km (labelAt layout pos.1 pos.2) with
          | none =>
            refine ⟨1, Except.error (), ?_⟩
            simp only [bfsAux]
            rw [if_neg h1, if_neg h2, hmv]
          | some moves =>
            have hlt : seq.length < L :=
              lt_of_le_of_ne (hq (seq, pos) (List.mem_cons_self _ _)) h2
            have hBlen : moves.length ≤ B := hB _ _ hmv
            have hchildm : qMeasure B L (moves.map fun m =>
                (seq ++ [labelAt layout (pos.1 + m.1) (pos.2 + m.2)],
                  (pos.1 + m.1, pos.2 + m.2))) =
                moves.length * (B + 1) ^ (L - seq.length) := by
              unfold qMeasure
              rw [List.map_map]
              have hc : ∀ m ∈ moves,
                  ((fun e : QueueEntry => (B + 1) ^ (L + 1 - e.1.length)) ∘ fun m =>
                    (seq ++ [labelAt layout (pos.1 + m.1) (pos.2 + m.2)],
                      (pos.1 + m.1, pos.2 + m.2))) m =
                    (B + 1) ^ (L - seq.length) := by
                intro m _
                simp only [Function.comp_apply, List.length_append, List.length_cons,
                  List.length_nil]
                congr 1
                omega
              rw [List.map_congr_left hc]
              simp [List.map_const']
            have hstep : moves.length * (B + 1) ^ (L - seq.length) <
                (B + 1) ^ (L + 1 - seq.length) := by
              have hk : L + 1 - seq.length = (L - seq.length) + 1 := by omega
              rw [hk, pow_succ]
              calc moves.length * (B + 1) ^ (L - seq.length)
                  ≤ B * (B + 1) ^ (L - seq.length) :=
                    Nat.mul_le_mul_right _ hBlen
                _ < (B + 1) ^ (L - seq.length) * (B + 1) := by
                    have hpos : 0 < (B + 1) ^ (L - seq.length) :=
                      pow_pos (Nat.succ_pos B) _
                    rw [Nat.mul_comm B]
                    gcongr
                    omega
            have hnewinv : ∀ e ∈ rest ++ moves.map fun m =>
                (seq ++ [labelAt layout (pos.1 + m.1) (pos.2 + m.2)],
                  (pos.1 + m.1, pos.2 + m.2)), e.1.length ≤ L := by
              intro e he
              rcases List.mem_append.mp he with h | h
              · exact hq e (List.mem_cons_of_mem _ h)
              · obtain ⟨m, _, rfl⟩ := List.mem_map.mp h
                simp only [List.length_append, List.length_cons, List.length_nil]
                omega
            have hnewm : qMeasure B L (rest ++ moves.map fun m =>
                (seq ++ [labelAt layout (pos.1 + m.1) (pos.2 + m.2)],
                  (pos.1 + m.1, pos.2 + m.2))) ≤ n := by
              rw [qMeasure_append, hchildm]
              omega
            obtain ⟨fuel, r, hr⟩ := ih _ acc hnewm hnewinv
            refine ⟨fuel + 1, r, ?_⟩
            simp only [bfsAux]
            rw [if_neg h1, if_neg h2, hmv]
            simp only
            exact hr

/-! ### Error freedom of the loop for injective labels -/

theorem bfsAux_no_error (invalidKey : Char) (layout : CharVector2D)
    (vowels : List Char) (L cap : Nat)
    (hinj : LabelsInjective invalidKey layout) :
    ∀ (fuel : Nat) (q : List QueueEntry) (acc : List (List Char)),
      (∀ e ∈ q, inGrid layout e.2 ∧ labelAt layout e.2.1 e.2.2 ≠ invalidKey) →
      bfsAux (SetValidMovesForAllKeys invalidKey layout) layout vowels L cap
          fuel q acc ≠ some (Except.error ()) := by
  intro fuel
  induction fuel with
  | zero =>
    intro q acc hq
    cases q with
    | nil => simp [bfsAux]
    | cons e rest => simp [bfsAux]
  | succ fuel ih =>
    intro q acc hq
    cases q with
    | nil => simp [bfsAux]
    | cons e rest =>
      obtain ⟨seq, pos⟩ := e
      simp only [bfsAux]
      by_cases h1 : CountVowels vowels seq > cap
      · rw [if_pos h1]
        exact ih rest acc (fun e he => hq e (List.mem_cons_of_mem _ he))
      · rw [if_neg h1]
        by_cases h2 : seq.length = L
        · rw [if_pos h2]
          exact ih rest (acc ++ [seq]) (fun e he => hq e (List.mem_cons_of_mem _ he))
        · rw [if_neg h2]
          obtain ⟨hgrid, hval⟩ := hq (seq, pos) (List.mem_cons_self _ _)
          rw [getValidMoves_build_self invalidKey layout hinj hgrid hval]
          simp only
          apply ih
          intro e he
          rcases List.mem_append.mp he with h | h
          · exact hq e (List.mem_cons_of_mem _ h)
          · obtain ⟨m, hm, rfl⟩ := List.mem_map.mp h
            have hd := legalMovesFrom_dest invalidKey layout hm
            exact ⟨hd.1, hd.2⟩

/-! ### The outer loop over starting cells -/

theorem generateFromStarts_ok (invalidKey : Char) (km : ValidKeyMoves)
    (layout : CharVector2D) (vowels : List Char) (L cap : Nat) (hL : 1 ≤ L) :
    ∀ (cells : List Coordinates) (fuel : Nat) (acc out : List (List Char)),
      generateFromStarts invalidKey km layout vowels L cap fuel cells acc =
        some (Except.ok out) →
      out.length = acc.length +
        (cells.map (startContribution invalidKey km layout vowels L cap)).sum := by
  intro cells
  induction cells with
  | nil =>
    intro fuel acc out h
    simp only [generateFromStarts, Option.some_inj, Except.ok.injEq] at h
    subst h
    simp
  | cons p rest ih =>
    intro fuel acc out h
    simp only [generateFromStarts] at h
    by_cases hv : labelAt layout p.1 p.2 ≠ invalidKey
    · rw [if_pos hv] at h
      cases hb : bfsAux km layout vowels L cap fuel
          [([labelAt layout p.1 p.2], p)] acc with
      | none =>
        rw [hb] at h
        simp only at h
        exact absurd h (by simp)
      | some r =>
        rw [hb] at h
        cases r with
        | error e =>
          simp only at h
          exact absurd h (by simp)
        | ok acc2 =>
          simp only at h
          have hacc2 := bfsAux_ok_length km layout vowels L cap fuel _ acc acc2
            (by
              intro e he
              simp only [List.mem_singleton] at he
              subst he
              simpa using hL)
            hb
          simp only [List.map_cons, List.map_nil, List.sum_cons, List.sum_nil]
            at hacc2
          have hrest := ih fuel acc2 out h
          rw [hrest, hacc2]
          simp only [List.map_cons, List.sum_cons, startContribution, if_pos hv]
          omega
    · rw [if_neg hv] at h
      have hrest := ih fuel acc out h
      rw [hrest]
      simp only [List.map_cons, List.sum_cons, startContribution, if_neg hv]
      omega

theorem generateFromStarts_mono (invalidKey : Char) (km : ValidKeyMoves)
    (layout : CharVector2D) (vowels : List Char) (L cap : Nat) :
    ∀ (cells : List Coordinates) (fuel fuel' : Nat) (acc : List (List Char))
      (r : Except Unit (List (List Char))), fuel ≤ fuel' →
      generateFromStarts invalidKey km layout vowels L cap fuel cells acc = some r →
      generateFromStarts invalidKey km layout vowels L cap fuel' cells acc = some r := by
  intro cells
  induction cells with
  | nil =>
    intro fuel fuel' acc r _ h
    simpa only [generateFromStarts] using h
  | cons p rest ih =>
    intro fuel fuel' acc r hle h
    simp only [generateFromStarts] at h ⊢
    by_cases hv : labelAt layout p.1 p.2 ≠ invalidKey
    · rw [if_pos hv] at h ⊢
      cases hb : bfsAux km layout vowels L cap fuel
          [([labelAt layout p.1 p.2], p)] acc with
      | none =>
        rw [hb] at h
        simp only at h
        exact absurd h (by simp)
      | some rb =>
        rw [hb] at h
        have hb2 := bfsAux_mono km layout vowels L cap fuel fuel' _ _ rb hle hb
        rw [hb2]
        cases rb with
        | error e => simpa only using h
        | ok acc2 =>
          simp only at h ⊢
          exact ih fuel fuel' acc2 r hle h
    · rw [if_neg hv] at h ⊢
      exact ih fuel fuel' acc r hle h

theorem generateFromStarts_term (invalidKey : Char) (km : ValidKeyMoves)
    (layout : CharVector2D) (vowels : List Char) (L cap : Nat) (hL : 1 ≤ L) :
    ∀ (cells : List Coordinates) (acc : List (List Char)),
      ∃ fuel r,
        generateFromStarts invalidKey km layout vowels L cap fuel cells acc =
          some r := by
  intro cells
  induction cells with
  | nil =>
    intro acc
    exact ⟨0, Except.ok acc, by simp [generateFromStarts]⟩
  | cons p rest ih =>
    intro acc
    by_cases hv : labelAt layout p.1 p.2 ≠ invalidKey
    · obtain ⟨f1, r1, hr1⟩ := bfsAux_term km layout vowels L cap (maxBranch km)
        (fun c ms h => length_le_maxBranch h)
        (qMeasure (maxBranch km) L [([labelAt layout p.1 p.2], p)])
        [([labelAt layout p.1 p.2], p)] acc le_rfl
        (by
          intro e he
          simp only [List.mem_singleton] at he
          subst he
          simpa using hL)
      cases r1 with
      | error e =>
        refine ⟨f1, Except.error e, ?_⟩
        simp only [generateFromStarts]
        rw [if_pos hv, hr1]
      | ok acc2 =>
        obtain ⟨f2, r, hr⟩ := ih acc2
        refine ⟨max f1 f2, r, ?_⟩
        simp only [generateFromStarts]
        rw [if_pos hv,
          bfsAux_mono km layout vowels L cap f1 (max f1 f2) _ _ _
            (le_max_left _ _) hr1]
        simp only
        exact generateFromStarts_mono invalidKey km layout vowels L cap rest
          f2 (max f1 f2) acc2 r (le_max_right _ _) hr
    · obtain ⟨f, r, hr⟩ := ih acc
      refine ⟨f, r, ?_⟩
      simp only [generateFromStarts]
      rw [if_neg hv]
      exact hr

theorem generateFromStarts_no_error (invalidKey : Char) (layout : CharVector2D)
    (vowels : List Char) (L cap : Nat)
    (hinj : LabelsInjective invalidKey layout) :
    ∀ (cells : List Coordinates) (fuel : Nat) (acc : List (List Char)),
      (∀ p ∈ cells, inGrid layout p) →
      generateFromStarts invalidKey (SetValidMovesForAllKeys invalidKey layout)
          layout vowels L cap fuel cells acc ≠ some (Except.error ()) := by
  intro cells
  induction cells with
  | nil => intro fuel acc _; simp [generateFromStarts]
  | cons p rest ih =>
    intro fuel acc hcells
    simp only [generateFromStarts]
    by_cases hv : labelAt layout p.1 p.2 ≠ invalidKey
    · rw [if_pos hv]
      cases hb : bfsAux (SetValidMovesForAllKeys invalidKey layout) layout vowels
          L cap fuel [([labelAt layout p.1 p.2], p)] acc with
      | none => simp
      | some rb =>
        cases rb with
        | error e =>
          cases e
          exact absurd hb
            (bfsAux_no_error invalidKey layout vowels L cap hinj fuel _ acc
              (by
                intro e he
                simp only [List.mem_singleton] at he
                subst he
                exact ⟨hcells p (List.mem_cons_self _ _), hv⟩))
        | ok acc2 =>
          simp only
          exact ih fuel acc2 (fun q hq => hcells q (List.mem_cons_of_mem _ hq))
    · rw [if_neg hv]
      exact ih fuel acc (fun q hq => hcells q (List.mem_cons_of_mem _ hq))

/-! ### Top-level enumeration lemmas -/

theorem generateSequences_ok_value (invalidKey : Char) (layout : CharVector2D)
    (vowels : List Char) (L cap : Nat) (hL : 1 ≤ L) (fuel : Nat)
    (out : List (List Char))
    (h : GenerateSequences invalidKey layout vowels L cap fuel =
      some (Except.ok out)) :
    out.length = ((rowMajorCells layout).map
      (startContribution invalidKey (SetValidMovesForAllKeys invalidKey layout)
        layout vowels L cap)).sum := by
  have hres := generateFromStarts_ok invalidKey
    (SetValidMovesForAllKeys invalidKey layout) layout vowels L cap hL
    (rowMajorCells layout) fuel [] out h
  simpa using hres

theorem generateSequences_term (invalidKey : Char) (layout : CharVector2D)
    (vowels : List Char) (L cap : Nat) (hL : 1 ≤ L) :
    ∃ fuel r, GenerateSequences invalidKey layout vowels L cap fuel = some r :=
  generateFromStarts_term invalidKey (SetValidMovesForAllKeys invalidKey layout)
    layout vowels L cap hL (rowMajorCells layout) []

theorem generateSequences_ok_exists (invalidKey : Char) (layout : CharVector2D)
    (vowels : List Char) (L cap : Nat)
    (hinj : LabelsInjective invalidKey layout) (hL : 1 ≤ L) :
    ∃ fuel out, GenerateSequences invalidKey layout vowels L cap fuel =
      some (Except.ok out) := by
  obtain ⟨fuel, r, hr⟩ := generateSequences_term invalidKey layout vowels L cap hL
  cases r with
  | error e =>
    cases e
    exact absurd hr
      (generateFromStarts_no_error invalidKey layout vowels L cap hinj
        (rowMajorCells layout) fuel []
        (fun p hp => (mem_rowMajorCells_iff _ _).mp hp))
  | ok out => exact ⟨fuel, out, hr⟩

theorem displayTotal_ok_value (invalidKey : Char) (layout : CharVector2D)
    (vowels : List Char) (L cap : Nat) (hL : 1 ≤ L) (fuel n : Nat)
    (h : displayTotalSequences invalidKey layout vowels L cap fuel =
      some (Except.ok n)) :
    n = ((rowMajorCells layout).map
      (startContribution invalidKey (SetValidMovesForAllKeys invalidKey layout)
        layout vowels L cap)).sum := by
  unfold displayTotalSequences at h
  cases hg : GenerateSequences invalidKey layout vowels L cap fuel with
  | none =>
    rw [hg] at h
    simp only at h
    exact absurd h (by simp)
  | some r =>
    rw [hg] at h
    cases r with
    | error e =>
      simp only at h
      exact absurd h (by simp)
    | ok out =>
      simp only [Option.some_inj, Except.ok.injEq] at h
      subst h
      exact generateSequences_ok_value invalidKey layout vowels L cap hL fuel out hg

theorem displayTotal_ok_exists (invalidKey : Char) (layout : CharVector2D)
    (vowels : List Char) (L cap : Nat)
    (hinj : LabelsInjective invalidKey layout) (hL : 1 ≤ L) :
    ∃ fuel n, displayTotalSequences invalidKey layout vowels L cap fuel =
      some (Except.ok n) := by
  obtain ⟨fuel, out, hr⟩ :=
    generateSequences_ok_exists invalidKey layout vowels L cap hinj hL
  refine ⟨fuel, out.length, ?_⟩
  unfold displayTotalSequences
  rw [hr]

/-! ### The tabulated dynamic program computes `dpAux` -/

theorem layerGet_build (R C V : Nat) (f : Nat → Nat → Nat → Nat) (x y : Int)
    (v : Nat) (hx : 0 ≤ x) (hxR : x < (R : Int)) (hy : 0 ≤ y)
    (hyC : y < (C : Int)) :
    layerGet ((List.range R).map fun i => (List.range C).map fun j =>
      (List.range V).map fun w => f i j w) x y v =
      if v < V then f x.toNat y.toNat v else 0 := by
  unfold layerGet
  rw [if_pos ⟨hx, hy⟩]
  have hxN : x.toNat < R := by omega
  have hyN : y.toNat < C := by omega
  rw [List.get?_map, List.get?_range hxN]
  simp only [Option.map_some', Option.getD_some]
  rw [List.get?_map, List.get?_range hyN]
  simp only [Option.map_some', Option.getD_some]
  by_cases hv : v < V
  · rw [if_pos hv]
    rw [List.get?_map, List.get?_range hv]
    simp only [Option.map_some', Option.getD_some]
  · rw [if_neg hv]
    have hnone : ((List.range V).map fun w => f x.toNat y.toNat w).get? v = none := by
      rw [List.get?_eq_none]
      simp only [List.length_map, List.length_range]
      omega
    rw [hnone]
    rfl

theorem layerGet_dpLayers (km : ValidKeyMoves) (layout : CharVector2D)
    (vowels : List Char) (cap : Nat) (htrans : movesStayInGrid km layout) :
    ∀ (rem : Nat) (x y : Int) (v : Nat), inGrid layout (x, y) →
      layerGet (dpLayers km layout vowels cap rem) x y v =
        dpAux km layout vowels cap rem v (x, y) := by
  intro rem
  induction rem with
  | zero =>
    intro x y v hg
    obtain ⟨hx, hxR, hy, hyC⟩ := hg
    simp only [GetRows] at hxR
    simp only [GetCols] at hyC
    simp only [dpLayers, dpLayer0]
    rw [layerGet_build layout.length (layout.headD []).length (cap + 1)
      (fun _ _ _ => 1) x y v hx hxR hy hyC]
    simp only [dpAux]
    by_cases hv : v < cap + 1
    · rw [if_pos hv, if_neg (by omega)]
    · rw [if_neg hv, if_pos (by omega)]
  | succ rem ih =>
    intro x y v hg
    have hgp := hg
    obtain ⟨hx, hxR, hy, hyC⟩ := hg
    simp only [GetRows] at hxR
    simp only [GetCols] at hyC
    simp only [dpLayers, dpLayerSucc]
    rw [layerGet_build layout.length (layout.headD []).length (cap + 1) _ x y v
      hx hxR hy hyC]
    simp only [dpAux]
    by_cases hv : v < cap + 1
    · rw [if_pos hv, if_neg (by omega : ¬cap < v)]
      have hx2 : 0 ≤ x := hx
      have hy2 : 0 ≤ y := hy
      rw [show Int.ofNat x.toNat = x from Int.toNat_of_nonneg hx2,
        show Int.ofNat y.toNat = y from Int.toNat_of_nonneg hy2]
      congr 1
      apply List.map_congr_left
      intro m hm
      have hdest : inGrid layout (x + m.1, y + m.2) :=
        htrans (x, y) ((mem_rowMajorCells_iff layout (x, y)).mpr hgp) m hm
      exact ih (x + m.1) (y + m.2) _ hdest
    · rw [if_neg hv, if_pos (by omega : cap < v)]

theorem layerGet_dpLayers_pair (km : ValidKeyMoves) (layout : CharVector2D)
    (vowels : List Char) (cap : Nat) (htrans : movesStayInGrid km layout)
    (rem : Nat) (p : Coordinates) (v : Nat) (hg : inGrid layout p) :
    layerGet (dpLayers km layout vowels cap rem) p.1 p.2 v =
      dpAux km layout vowels cap rem v p := by
  have h := layerGet_dpLayers km layout vowels cap htrans rem p.1 p.2 v hg
  rw [Prod.mk.eta] at h
  exact h

/-! ### Facts about the reference configuration -/

theorem referenceInjective :
    LabelsInjective referenceInvalidKey referenceLayout := by decide

theorem referenceTrans : movesStayInGrid referenceKeyMoves referenceLayout := by
  decide

theorem referenceDP_value : referenceDPTotal = 1013398 := by decide

theorem reference_sum_eq_dp :
    ((rowMajorCells referenceLayout).map
      (startContribution referenceInvalidKey referenceKeyMoves referenceLayout
        referenceVowels 10 2)).sum = referenceDPTotal := by
  unfold referenceDPTotal
  congr 1
  apply List.map_congr_left
  intro p hp
  unfold startContribution
  by_cases hv : labelAt referenceLayout p.1 p.2 ≠ referenceInvalidKey
  · rw [if_pos hv, if_pos hv]
    rw [seqCount_eq_dpAux referenceKeyMoves referenceLayout referenceVowels 10 2 9
      [labelAt referenceLayout p.1 p.2] p (by simp) (by simp)]
    rw [← layerGet_dpLayers_pair referenceKeyMoves referenceLayout referenceVowels
      2 referenceTrans 9 p _ ((mem_rowMajorCells_iff _ _).mp hp)]
    rw [countVowels_singleton]
  · rw [if_neg hv, if_neg hv]

theorem sum_map_indicator (l : List Coordinates) (P : Coordinates → Prop)
    [DecidablePred P] :
    (l.map fun p => if P p then 1 else 0).sum = l.countP fun p => decide (P p) := by
  induction l with
  | nil => rfl
  | cons a t ih =>
    rw [List.map_cons, List.sum_cons, List.countP_cons, ih]
    by_cases h : P a <;> simp [h] <;> omega

theorem finset_pair_eq_one_two (a b : ℕ) :
    ({a, b} : Finset ℕ) = {1, 2} ↔ (a = 1 ∧ b = 2) ∨ (a = 2 ∧ b = 1) := by
  constructor
  · intro h
    have ha : a ∈ ({1, 2} : Finset ℕ) := by
      rw [← h]; simp
    have hb : b ∈ ({1, 2} : Finset ℕ) := by
      rw [← h]; simp
    have h1 : (1 : ℕ) ∈ ({a, b} : Finset ℕ) := by
      rw [h]; simp
    have h2 : (2 : ℕ) ∈ ({a, b} : Finset ℕ) := by
      rw [h]; simp
    simp only [Finset.mem_insert, Finset.mem_singleton] at ha hb h1 h2
    omega
  · rintro (⟨rfl, rfl⟩ | ⟨rfl, rfl⟩)
    · rfl
    · exact Finset.pair_comm 2 1

/-! ### The claims -/

/-- C1: for the reference configuration (the fixed 4×5 keypad with sentinel
cells at the two bottom corners, the eight knight offsets, sequence length
10, at most 2 vowels, vowel set AEIOU), the program terminates normally with
exit status 0 and prints `Total number of sequences: 1013398`. -/
theorem claim_C1 :
    ∃ fuel, mainModel referenceInvalidKey referenceLayout referenceVowels 10 2
      fuel = some (0, "Total number of sequences: 1013398") := by
  obtain ⟨fuel, n, hrun⟩ := displayTotal_ok_exists referenceInvalidKey
    referenceLayout referenceVowels 10 2 referenceInjective (by omega)
  have hn := displayTotal_ok_value referenceInvalidKey referenceLayout
    referenceVowels 10 2 (by omega) fuel n hrun
  have hn2 : n = 1013398 := by
    rw [hn]
    have hsum := reference_sum_eq_dp
    unfold referenceKeyMoves at hsum
    rw [hsum, referenceDP_value]
  refine ⟨fuel, ?_⟩
  have hlay : KeyboardLayoutInit referenceLayout = Except.ok referenceLayout := rfl
  have hkb : KeyboardInit 10 2 referenceInvalidKey referenceLayout =
      Except.ok referenceKeyMoves := rfl
  unfold mainModel
  rw [hlay]
  simp only
  rw [hkb]
  simp only
  rw [hrun]
  simp only
  rw [hn2]
  rfl

/-- C3 counterexample: constructing a Grid from rows of unequal length does
not raise `InvalidLayout` — the constructor accepts `[['A','B'], ['C']]`
although its rows have lengths 2 and 1, contradicting the claim that
non-rectangular tables are rejected. -/
theorem claim_C3_counterexample :
    KeyboardLayoutInit [['A', 'B'], ['C']] = Except.ok [['A', 'B'], ['C']] ∧
      (['A', 'B'] : List Char).length ≠ (['C'] : List Char).length :=
  ⟨rfl, by decide⟩

/-- C3 (amended): grid construction raises `InvalidLayout` if and only if the
table of labels is empty or its first row is empty; rows of unequal length
and empty rows other than the first are not rejected. -/
theorem claim_C3 (layout : CharVector2D) :
    KeyboardLayoutInit layout = Except.error () ↔
      (layout = [] ∨ layout.headD [] = []) := by
  unfold KeyboardLayoutInit
  by_cases h : layout.isEmpty || (layout.headD []).isEmpty
  · rw [if_pos h]
    simp only [Bool.or_eq_true, List.isEmpty_iff] at h
    exact iff_of_true rfl h
  · rw [if_neg h]
    simp only [Bool.or_eq_true, List.isEmpty_iff] at h
    push_neg at h
    exact iff_of_false (by simp) (by
      rintro (h1 | h2)
      · exact h.1 h1
      · exact h.2 h2)

/-- C4 counterexample: with `sequenceLength = 1` and `maxVowels = 0` on the
one-cell grid `[['A']]`, the enumerator returns 0 although the grid has one
valid cell — the vowel cutoff runs before the length test, so a vowel-labelled
start is discarded. -/
theorem claim_C4_counterexample :
    displayTotalSequences (Char.ofNat 0) [['A']] referenceVowels 1 0 3 =
        some (Except.ok 0) ∧
      validCellCount (Char.ofNat 0) [['A']] = 1 :=
  ⟨rfl, rfl⟩

/-- C4 (amended): when `sequenceLength = 1` and `maxVowels ≥ 1` (so that no
single-label sequence can exceed the vowel cap), the aggregate count equals
the number of valid cells of the grid. -/
theorem claim_C4 (invalidKey : Char) (layout : CharVector2D)
    (vowels : List Char) (cap fuel n : Nat) (hcap : 1 ≤ cap)
    (h : displayTotalSequences invalidKey layout vowels 1 cap fuel =
      some (Except.ok n)) :
    n = validCellCount invalidKey layout := by
  have hval := displayTotal_ok_value invalidKey layout vowels 1 cap le_rfl
    fuel n h
  rw [hval]
  unfold validCellCount
  have hsc : ∀ p ∈ rowMajorCells layout,
      startContribution invalidKey (SetValidMovesForAllKeys invalidKey layout)
        layout vowels 1 cap p =
      if labelAt layout p.1 p.2 ≠ invalidKey then 1 else 0 := by
    intro p _
    unfold startContribution
    by_cases hv : labelAt layout p.1 p.2 ≠ invalidKey
    · rw [if_pos hv, if_pos hv]
      rw [seqCount]
      have hcv : CountVowels vowels [labelAt layout p.1 p.2] ≤ 1 := by
        have := countVowels_le_length vowels [labelAt layout p.1 p.2]
        simpa using this
      rw [if_neg (by omega), if_pos (by simp)]
    · rw [if_neg hv, if_neg hv]
  rw [List.map_congr_left hsc]
  exact sum_map_indicator (rowMajorCells layout)
    fun p => labelAt layout p.1 p.2 ≠ invalidKey

/-- C5 counterexample: on the 3×3 grid whose nine valid cells all carry the
label `B` (move table built from that same grid), enumeration with
`sequenceLength = 4` reaches a cell outside the grid whose label is absent
from the table, and the `UnknownLabel` lookup failure occurs: the run ends
in the error modelling the thrown exception. -/
theorem claim_C5_counterexample :
    displayTotalSequences '.'
        [['B', 'B', 'B'], ['B', 'B', 'B'], ['B', 'B', 'B']]
        referenceVowels 4 2 20 = some (Except.error ()) := rfl

/-- C5 (amended): if, in addition, every label occupies at most one valid
cell (as in the reference layout), then every move-table lookup performed
during enumeration succeeds, every enqueued partial sequence ends at an
in-bounds valid cell, and the enumeration terminates without error. -/
theorem claim_C5 (invalidKey : Char) (layout : CharVector2D)
    (vowels : List Char) (L cap : Nat)
    (hinj : LabelsInjective invalidKey layout) (hL : 1 ≤ L) :
    ∃ fuel n, displayTotalSequences invalidKey layout vowels L cap fuel =
      some (Except.ok n) :=
  displayTotal_ok_exists invalidKey layout vowels L cap hinj hL

theorem claim_C5_witness :
    ∃ fuel n, displayTotalSequences referenceInvalidKey referenceLayout
      referenceVowels 2 2 fuel = some (Except.ok n) :=
  claim_C5 referenceInvalidKey referenceLayout referenceVowels 2 2
    (by decide) (by omega)

/-- C6: the move-legality predicate accepts `(x, y)` with offset `(dx, dy)`
iff the destination is within `[0, rows) × [0, cols)`, the destination's
label is not the sentinel, and the absolute offsets form the knight shape
`{|dx|, |dy|} = {1, 2}`. -/
theorem claim_C6 (x y dx dy : Int) (invalidKey : Char) (layout : CharVector2D) :
    IsValidMove x y dx dy invalidKey layout = true ↔
      (0 ≤ x + dx ∧ x + dx < GetRows layout ∧
        0 ≤ y + dy ∧ y + dy < GetCols layout ∧
        labelAt layout (x + dx) (y + dy) ≠ invalidKey ∧
        ({dx.natAbs, dy.natAbs} : Finset ℕ) = {1, 2}) := by
  rw [isValidMove_iff, finset_pair_eq_one_two]

/-- C8: constructing the Keyboard with `sequenceLength = 0` raises
`InvalidConfiguration` at construction time, and any completed run of the
program with that configuration exits with a non-zero status. -/
theorem claim_C8 (cap : Nat) (invalidKey : Char) (layout : CharVector2D)
    (vowels : List Char) (fuel : Nat) (pr : Nat × String)
    (h : mainModel invalidKey layout vowels 0 cap fuel = some pr) :
    KeyboardInit 0 cap invalidKey layout = Except.error () ∧ pr.1 ≠ 0 := by
  refine ⟨rfl, ?_⟩
  unfold mainModel at h
  cases hl : KeyboardLayoutInit layout with
  | error e =>
    rw [hl] at h
    simp only [Option.some_inj] at h
    rw [← h]
    decide
  | ok l2 =>
    rw [hl] at h
    simp only at h
    rw [show KeyboardInit 0 cap invalidKey layout = Except.error () from rfl] at h
    simp only [Option.some_inj] at h
    rw [← h]
    decide

theorem claim_C8_witness :
    KeyboardInit 0 2 referenceInvalidKey referenceLayout = Except.error () ∧
      ((1 : Nat), ("" : String)).1 ≠ 0 :=
  claim_C8 2 referenceInvalidKey referenceLayout referenceVowels 0 (1, "") rfl

/-- C9: for every validated configuration with `sequenceLength ≥ 1`, the
breadth-first enumeration terminates — some finite iteration bound makes the
loop run to completion (each expansion produces sequences exactly one symbol
longer, and sequences at the target length or over the vowel cap are never
expanded, so only finitely many partial sequences are processed). -/
theorem claim_C9 (invalidKey : Char) (layout : CharVector2D)
    (vowels : List Char) (L cap : Nat) (hL : 1 ≤ L) :
    ∃ fuel r, GenerateSequences invalidKey layout vowels L cap fuel = some r :=
  generateSequences_term invalidKey layout vowels L cap hL

theorem claim_C9_witness :
    ∃ fuel r, GenerateSequences referenceInvalidKey referenceLayout
      referenceVowels 10 2 fuel = some r :=
  claim_C9 referenceInvalidKey referenceLayout referenceVowels 10 2 (by omega)

/-- C10: the move table inserts entries keyed by label without overwriting:
the list stored for a label is the legal-move list computed for the first
valid cell carrying that label in row-major order (and `none` when no valid
cell carries it).  The enumeration's lookups (`GetValidMovesForAKey` at the
current cell's label, as used by the breadth-first loop) therefore return
that first cell's move list for every cell carrying the label. -/
theorem claim_C10 (invalidKey : Char) (layout : CharVector2D) (c : Char) :
    GetValidMovesForAKey (SetValidMovesForAllKeys invalidKey layout) c =
      (firstCellWith invalidKey layout c).map
        fun p => legalMovesFrom invalidKey layout p.1 p.2 :=
  getValidMoves_build invalidKey layout c

/-! ### Monotonicity of the count in the vowel cap -/

theorem dpAux_mono_cap (km : ValidKeyMoves) (layout : CharVector2D)
    (vowels : List Char) (cap cap' : Nat) (hcc : cap ≤ cap') :
    ∀ (rem v : Nat) (pos : Coordinates),
      dpAux km layout vowels cap rem v pos ≤
        dpAux km layout vowels cap' rem v pos := by
  intro rem
  induction rem with
  | zero =>
    intro v pos
    simp only [dpAux]
    by_cases h : cap < v
    · rw [if_pos h]
      exact Nat.zero_le _
    · rw [if_neg h, if_neg (by omega)]
  | succ rem ih =>
    intro v pos
    simp only [dpAux]
    by_cases h : cap < v
    · rw [if_pos h]
      exact Nat.zero_le _
    · rw [if_neg h, if_neg (by omega)]
      apply List.sum_le_sum
      intro m _
      exact ih _ _

theorem dpAux_eq_of_le_cap (km : ValidKeyMoves) (layout : CharVector2D)
    (vowels : List Char) :
    ∀ (rem cap cap' v : Nat) (pos : Coordinates), v + rem ≤ cap →
      v + rem ≤ cap' →
      dpAux km layout vowels cap rem v pos =
        dpAux km layout vowels cap' rem v pos := by
  intro rem
  induction rem with
  | zero =>
    intro cap cap' v pos h h2
    simp only [dpAux]
    rw [if_neg (by omega), if_neg (by omega)]
  | succ rem ih =>
    intro cap cap' v pos h h2
    simp only [dpAux]
    rw [if_neg (by omega), if_neg (by omega)]
    congr 1
    apply List.map_congr_left
    intro m _
    apply ih
    · split <;> omega
    · split <;> omega

theorem dpAux_eq_noVowels (km : ValidKeyMoves) (layout : CharVector2D)
    (vowels : List Char) :
    ∀ (rem cap v : Nat) (pos : Coordinates), v + rem ≤ cap →
      dpAux km layout vowels cap rem v pos =
        dpAux km layout [] 0 rem 0 pos := by
  intro rem
  induction rem with
  | zero =>
    intro cap v pos h
    simp only [dpAux]
    rw [if_neg (by omega), if_neg (by omega)]
  | succ rem ih =>
    intro cap v pos h
    simp only [dpAux]
    rw [if_neg (by omega), if_neg (by omega : ¬(0 : Nat) < 0)]
    congr 1
    apply List.map_congr_left
    intro m _
    have hf : IsVowel ([] : List Char)
        (labelAt layout (pos.1 + m.1) (pos.2 + m.2)) = false := rfl
    rw [hf]
    simp only [Bool.false_eq_true, if_false, Nat.add_zero]
    apply ih
    split <;> omega

/-! ### The declarative count -/

theorem getMoves_nodup : GetMoves.Nodup := by decide

theorem table_entry_sublist (invalidKey : Char) (layout : CharVector2D)
    {c : Char} {ms : List Coordinates}
    (h : GetValidMovesForAKey (SetValidMovesForAllKeys invalidKey layout) c =
      some ms) : ms.Sublist GetMoves := by
  obtain ⟨p, rfl⟩ := table_entry_shape invalidKey layout h
  exact legalMovesFrom_sublist invalidKey layout p.1 p.2

theorem sum_ite_mem_sublist (f : Coordinates → Nat) :
    ∀ {ms A : List Coordinates}, ms.Sublist A → A.Nodup →
      (A.map fun o => if o ∈ ms then f o else 0).sum = (ms.map f).sum := by
  intro ms A h
  induction h with
  | slnil =>
    intro _
    simp
  | @cons l1 l2 a h ih =>
    intro hnd
    have hna : a ∉ l1 := fun ha => (List.nodup_cons.mp hnd).1 (h.subset ha)
    rw [List.map_cons, List.sum_cons, if_neg hna, ih (List.nodup_cons.mp hnd).2]
    omega
  | @cons₂ l1 l2 a h ih =>
    intro hnd
    have hnal2 : a ∉ l2 := (List.nodup_cons.mp hnd).1
    rw [List.map_cons, List.sum_cons, if_pos (List.mem_cons_self a _),
      List.map_cons, List.sum_cons]
    have hcong : ∀ o ∈ l2,
        (if o ∈ a :: l1 then f o else 0) = (if o ∈ l1 then f o else 0) := by
      intro o ho
      by_cases h1 : o ∈ l1
      · rw [if_pos (List.mem_cons_of_mem a h1), if_pos h1]
      · rw [if_neg ?_, if_neg h1]
        intro hmem
        rcases List.mem_cons.mp hmem with rfl | hmem2
        · exact hnal2 ho
        · exact h1 hmem2
    rw [List.map_congr_left hcong, ih (List.nodup_cons.mp hnd).2]

theorem countP_const_and (l : List (List Coordinates)) (b : Bool)
    (P : List Coordinates → Bool) :
    (l.countP fun os => b && P os) = if b then l.countP P else 0 := by
  cases b
  · simp
  · simp

theorem budgetOK_cons (km : ValidKeyMoves) (layout : CharVector2D)
    (vowels : List Char) (cap v : Nat) (p : Coordinates) (o : Coordinates)
    (os : List Coordinates) :
    budgetOK km layout vowels cap v p (o :: os) =
      (decide (o ∈ (GetValidMovesForAKey km
          (labelAt layout p.1 p.2)).getD []) &&
        budgetOK km layout vowels cap
          (v + if IsVowel vowels (labelAt layout (p.1 + o.1) (p.2 + o.2))
            then 1 else 0)
          (p.1 + o.1, p.2 + o.2) os) := by
  unfold budgetOK
  rw [show pathStepsOK km layout p (o :: os) =
      (decide (o ∈ (GetValidMovesForAKey km
          (labelAt layout p.1 p.2)).getD []) &&
        pathStepsOK km layout (p.1 + o.1, p.2 + o.2) os) from rfl]
  rw [show tailLabels layout p (o :: os) =
      labelAt layout (p.1 + o.1) (p.2 + o.2) ::
        tailLabels layout (p.1 + o.1, p.2 + o.2) os from rfl]
  rw [countVowels_cons]
  have harith : v + ((if IsVowel vowels (labelAt layout (p.1 + o.1) (p.2 + o.2))
      then 1 else 0) +
        CountVowels vowels (tailLabels layout (p.1 + o.1, p.2 + o.2) os)) =
      (v + if IsVowel vowels (labelAt layout (p.1 + o.1) (p.2 + o.2))
        then 1 else 0) +
        CountVowels vowels (tailLabels layout (p.1 + o.1, p.2 + o.2) os) :=
    (Nat.add_assoc _ _ _).symm
  rw [harith, Bool.and_assoc]

theorem countP_budget_eq_dpAux (km : ValidKeyMoves) (layout : CharVector2D)
    (vowels : List Char) (cap : Nat)
    (htab : ∀ c ms, GetValidMovesForAKey km c = some ms → ms.Sublist GetMoves) :
    ∀ (rem v : Nat) (p : Coordinates),
      (offsetLists GetMoves rem).countP
        (budgetOK km layout vowels cap v p) =
      dpAux km layout vowels cap rem v p := by
  intro rem
  induction rem with
  | zero =>
    intro v p
    have hnil : budgetOK km layout vowels cap v p [] = decide (v ≤ cap) := by
      unfold budgetOK
      rw [show pathStepsOK km layout p [] = true from rfl,
        show tailLabels layout p [] = ([] : List Char) from rfl,
        show CountVowels vowels [] = 0 from rfl]
      simp
    simp only [offsetLists, dpAux, List.countP_cons, List.countP_nil, hnil]
    by_cases h : v ≤ cap
    · simp only [decide_eq_true h, if_true, Nat.zero_add]
      rw [if_neg (by omega : ¬cap < v)]
    · simp only [decide_eq_false h, Bool.false_eq_true, if_false, Nat.add_zero]
      rw [if_pos (by omega : cap < v)]
  | succ rem ih =>
    intro v p
    have hsub : ((GetValidMovesForAKey km
        (labelAt layout p.1 p.2)).getD []).Sublist GetMoves := by
      cases hmv : GetValidMovesForAKey km (labelAt layout p.1 p.2) with
      | none => exact List.nil_sublist GetMoves
      | some ms => exact htab _ ms hmv
    simp only [offsetLists]
    rw [List.countP_flatMap]
    simp only [dpAux]
    by_cases h : cap < v
    · rw [if_pos h]
      have hall : ∀ o ∈ GetMoves,
          ((List.countP (budgetOK km layout vowels cap v p)) ∘
            fun o => (offsetLists GetMoves rem).map fun os => o :: os) o = 0 := by
        intro o _
        simp only [Function.comp_apply]
        rw [List.countP_map]
        apply List.countP_eq_zero.mpr
        intro os _
        simp only [Function.comp_apply, budgetOK_cons]
        unfold budgetOK
        have hv2 : decide (v + (if IsVowel vowels
            (labelAt layout (p.1 + o.1) (p.2 + o.2)) then 1 else 0) +
            CountVowels vowels
              (tailLabels layout (p.1 + o.1, p.2 + o.2) os) ≤ cap) = false := by
          rw [decide_eq_false_iff_not]
          omega
        rw [hv2]
        simp
      rw [List.map_congr_left hall]
      simp [List.map_const']
    · rw [if_neg h]
      have hpt : ∀ o ∈ GetMoves,
          ((List.countP (budgetOK km layout vowels cap v p)) ∘
            fun o => (offsetLists GetMoves rem).map fun os => o :: os) o =
          (if o ∈ (GetValidMovesForAKey km (labelAt layout p.1 p.2)).getD []
            then dpAux km layout vowels cap rem
              (v + if IsVowel vowels (labelAt layout (p.1 + o.1) (p.2 + o.2))
                then 1 else 0)
              (p.1 + o.1, p.2 + o.2)
            else 0) := by
        intro o _
        simp only [Function.comp_apply]
        rw [List.countP_map]
        have hpred : ((budgetOK km layout vowels cap v p) ∘
            fun os => o :: os) = fun os =>
            (decide (o ∈ (GetValidMovesForAKey km
                (labelAt layout p.1 p.2)).getD []) &&
              budgetOK km layout vowels cap
                (v + if IsVowel vowels (labelAt layout (p.1 + o.1) (p.2 + o.2))
                  then 1 else 0)
                (p.1 + o.1, p.2 + o.2) os) := by
          funext os
          simp only [Function.comp_apply]
          exact budgetOK_cons km layout vowels cap v p o os
        rw [hpred, countP_const_and]
        by_cases hmem : o ∈ (GetValidMovesForAKey km
            (labelAt layout p.1 p.2)).getD []
        · rw [if_pos (by simpa using hmem), if_pos hmem, ih]
        · rw [if_neg (by simpa using hmem), if_neg hmem]
      rw [List.map_congr_left hpt]
      exact sum_ite_mem_sublist _ hsub getMoves_nodup

theorem prefixes_iff_total (vowels : List Char) (cap : Nat) (ls : List Char) :
    prefixesWithinVowelCap vowels cap ls =
      decide (CountVowels vowels ls ≤ cap) := by
  unfold prefixesWithinVowelCap
  by_cases h : CountVowels vowels ls ≤ cap
  · rw [decide_eq_true h]
    apply List.all_eq_true.mpr
    intro k _
    simp only [decide_eq_true_eq]
    exact le_trans (countVowels_take_le vowels k ls) h
  · rw [decide_eq_false h]
    apply List.all_eq_false.mpr
    refine ⟨ls.length, by simp, ?_⟩
    simp [List.take_length, h]

theorem acceptedFrom_eq_budgetOK (km : ValidKeyMoves) (layout : CharVector2D)
    (vowels : List Char) (cap : Nat) (p : Coordinates) :
    acceptedFrom km layout vowels cap p =
      budgetOK km layout vowels cap
        (CountVowels vowels [labelAt layout p.1 p.2]) p := by
  funext os
  unfold acceptedFrom budgetOK
  rw [prefixes_iff_total]
  have hcv : CountVowels vowels (pathLabels layout p os) =
      CountVowels vowels [labelAt layout p.1 p.2] +
        CountVowels vowels (tailLabels layout p os) := by
    unfold pathLabels
    rw [countVowels_cons, countVowels_singleton]
  rw [hcv]

theorem claim_C4_witness : (2 : Nat) = validCellCount (Char.ofNat 0) [['A', 'B']] :=
  claim_C4 (Char.ofNat 0) [['A', 'B']] referenceVowels 1 5 2 (by omega) rfl

/-- C2: whenever the enumerator completes and returns an aggregate count (for
a grid, its move table, `sequenceLength ≥ 1`, a vowel cap and a vowel set),
that count equals the number of admissible derivations: offset lists of
length `sequenceLength - 1` starting at a valid cell, each step drawn from
the move table entry of the current cell's label, whose spelled label
sequence has no prefix with more than `maxVowels` vowels.  (The hard cutoff
of over-budget partial sequences therefore never removes an admissible
sequence: since appending labels never removes vowels, the prefix condition
is equivalent to the final count being within the cap.) -/
theorem claim_C2 (invalidKey : Char) (layout : CharVector2D)
    (vowels : List Char) (L cap fuel n : Nat) (hL : 1 ≤ L)
    (h : displayTotalSequences invalidKey layout vowels L cap fuel =
      some (Except.ok n)) :
    n = declarativeCount invalidKey layout vowels L cap := by
  have hval := displayTotal_ok_value invalidKey layout vowels L cap hL fuel n h
  rw [hval]
  unfold declarativeCount
  congr 1
  apply List.map_congr_left
  intro p _
  unfold startContribution
  by_cases hv : labelAt layout p.1 p.2 ≠ invalidKey
  · rw [if_pos hv, if_pos hv]
    rw [seqCount_eq_dpAux (SetValidMovesForAllKeys invalidKey layout) layout
      vowels L cap (L - 1) [labelAt layout p.1 p.2] p
      (by simp; omega) (by simp)]
    rw [← countP_budget_eq_dpAux (SetValidMovesForAllKeys invalidKey layout)
      layout vowels cap (fun c ms hcm => table_entry_sublist invalidKey layout hcm)
      (L - 1) (CountVowels vowels [labelAt layout p.1 p.2]) p]
    rw [acceptedFrom_eq_budgetOK]
  · rw [if_neg hv, if_neg hv]

theorem claim_C2_witness :
    (16 : Nat) = declarativeCount (Char.ofNat 0)
      [['A', 'B', 'C'], ['D', 'E', 'F'], ['G', 'H', 'K']]
      referenceVowels 2 2 :=
  claim_C2 (Char.ofNat 0) [['A', 'B', 'C'], ['D', 'E', 'F'], ['G', 'H', 'K']]
    referenceVowels 2 2 40 16 (by omega) (by rfl)

/-- C7: for a fixed grid, move rule and sequence length, the aggregate count
is non-decreasing in `maxVowels`; every count is at most the count obtained
with `maxVowels = sequenceLength`; and any `maxVowels ≥ sequenceLength`
yields the same count as running with no vowel constraint at all (modelled
as the empty vowel set). -/
theorem claim_C7 (invalidKey : Char) (layout : CharVector2D)
    (vowels : List Char) (L cap cap' f1 f2 f3 f4 n n' nL nfree : Nat)
    (hL : 1 ≤ L) (hcc : cap ≤ cap')
    (h1 : displayTotalSequences invalidKey layout vowels L cap f1 =
      some (Except.ok n))
    (h2 : displayTotalSequences invalidKey layout vowels L cap' f2 =
      some (Except.ok n'))
    (h3 : displayTotalSequences invalidKey layout vowels L L f3 =
      some (Except.ok nL))
    (h4 : displayTotalSequences invalidKey layout [] L 0 f4 =
      some (Except.ok nfree)) :
    n ≤ n' ∧ n ≤ nL ∧ (L ≤ cap → n = nfree) := by
  have e1 := displayTotal_ok_value invalidKey layout vowels L cap hL f1 n h1
  have e2 := displayTotal_ok_value invalidKey layout vowels L cap' hL f2 n' h2
  have e3 := displayTotal_ok_value invalidKey layout vowels L L hL f3 nL h3
  have e4 := displayTotal_ok_value invalidKey layout [] L 0 hL f4 nfree h4
  have hv0 : ∀ p : Coordinates,
      CountVowels vowels [labelAt layout p.1 p.2] ≤ 1 := by
    intro p
    simpa using countVowels_le_length vowels [labelAt layout p.1 p.2]
  have hlen1 : ∀ p : Coordinates,
      ([labelAt layout p.1 p.2] : List Char).length ≤ L := by
    intro p
    simpa using hL
  have hrem : ∀ p : Coordinates,
      L - ([labelAt layout p.1 p.2] : List Char).length = L - 1 := by
    intro p
    simp
  refine ⟨?_, ?_, ?_⟩
  · rw [e1, e2]
    apply List.sum_le_sum
    intro p _
    unfold startContribution
    by_cases hvp : labelAt layout p.1 p.2 ≠ invalidKey
    · rw [if_pos hvp, if_pos hvp]
      rw [seqCount_eq_dpAux _ layout vowels L cap (L - 1) _ p (hlen1 p) (hrem p),
        seqCount_eq_dpAux _ layout vowels L cap' (L - 1) _ p (hlen1 p) (hrem p)]
      exact dpAux_mono_cap _ layout vowels cap cap' hcc (L - 1) _ p
    · rw [if_neg hvp, if_neg hvp]
  · rw [e1, e3]
    apply List.sum_le_sum
    intro p _
    unfold startContribution
    by_cases hvp : labelAt layout p.1 p.2 ≠ invalidKey
    · rw [if_pos hvp, if_pos hvp]
      rw [seqCount_eq_dpAux _ layout vowels L cap (L - 1) _ p (hlen1 p) (hrem p),
        seqCount_eq_dpAux _ layout vowels L L (L - 1) _ p (hlen1 p) (hrem p)]
      by_cases hcase : cap ≤ L
      · exact dpAux_mono_cap _ layout vowels cap L hcase (L - 1) _ p
      · rw [dpAux_eq_of_le_cap _ layout vowels (L - 1) cap L _ p
          (by have := hv0 p; omega) (by have := hv0 p; omega)]
    · rw [if_neg hvp, if_neg hvp]
  · intro hLcap
    rw [e1, e4]
    congr 1
    apply List.map_congr_left
    intro p _
    unfold startContribution
    by_cases hvp : labelAt layout p.1 p.2 ≠ invalidKey
    · rw [if_pos hvp, if_pos hvp]
      rw [seqCount_eq_dpAux _ layout vowels L cap (L - 1) _ p (hlen1 p) (hrem p),
        seqCount_eq_dpAux _ layout [] L 0 (L - 1) _ p (hlen1 p) (hrem p)]
      have hz : CountVowels ([] : List Char) [labelAt layout p.1 p.2] = 0 := rfl
      rw [hz]
      rw [dpAux_eq_noVowels _ layout vowels (L - 1) cap _ p
        (by have := hv0 p; omega)]
    · simp only [ne_eq, not_not] at hvp
      simp [hvp]

theorem claim_C7_witness :
    (3 : Nat) ≤ 4 ∧ (3 : Nat) ≤ 4 ∧ ((1 : Nat) ≤ 0 → (3 : Nat) = 4) :=
  claim_C7 (Char.ofNat 0) [['A', 'B'], ['C', 'D']] referenceVowels 1 0 1 5 5 5 5
    3 4 4 4 (by omega) (by omega) rfl rfl rfl rfl

end ChessChallenge
